import Mathlib

/-!
Verification of the DarkHistory spectrum subsystems: the `Spectra` container
with conservative rebinning (src/darkhistory/spec/spectra.py) and the adaptive
inverse-Compton-scattering spectrum evaluator
(src/darkhistory/electrons/ics/ics_spectrum.py).

Shallow embedding conventions:
  - numpy float arrays are modelled as functions `ℕ → ℝ` together with an
    explicit size field; entries at out-of-range indices are irrelevant junk;
  - floating-point arithmetic is modelled as exact real arithmetic;
  - raising an exception is modelled with `Except String`;
  - in-place mutation is modelled by returning the post-call state.
-/

set_option maxHeartbeats 1000000

noncomputable section

open scoped Classical

open Finset

/-! ### Physical constants, from src/darkhistory/physics.py -/

/-- Electron mass in eV (physics.py line 12). -/
def phys.me : ℝ := 510998.9461

/-- hbar in eV s (physics.py line 14). -/
def phys.hbar : ℝ := 6.58211951e-16

/-- Speed of light in cm/s (physics.py line 16). -/
def phys.c : ℝ := 299792458e2

/-- Boltzmann constant in eV/K (physics.py line 18). -/
def phys.kB : ℝ := 8.6173324e-5

/-- Thomson cross section in cm^2 (physics.py line 30). -/
def phys.thomson_xsec : ℝ := 6.652458734e-25

/-- Electron Compton wavelength in cm (physics.py line 50). -/
def phys.ele_compton : ℝ := 2 * Real.pi * phys.hbar * phys.c / phys.me

/-- CMB temperature in eV at redshift rs (physics.py line 716). -/
def phys.TCMB (rs : ℝ) : ℝ := 2.7255 * phys.kB * rs

/-! ### Log bin widths.

Modelled from the spec: `darkhistory.spec.spectools` (functions
`get_bin_bound` and `get_log_bin_width`, imported by spectra.py) is not under
src/.  Spec section 3: bin boundaries are the geometric midpoints between
consecutive samples, with an implied boundary below the first and above the
last sample derived by extrapolating the constant log-spacing; the log bin
width of a bin is the difference of the logs of its two boundaries. -/

/-- Log of the bin boundary number k (k ranges over 0..m) of an m-point
energy abscissa.  Interior boundaries are geometric midpoints of consecutive
samples; the outer two extrapolate the neighbouring log-spacing. -/
def log_bin_bound (m : ℕ) (eng : ℕ → ℝ) (k : ℕ) : ℝ :=
  if k = 0 then
    Real.log (eng 0) - (Real.log (eng 1) - Real.log (eng 0)) / 2
  else if k < m then
    (Real.log (eng (k - 1)) + Real.log (eng k)) / 2
  else
    Real.log (eng (m - 1)) + (Real.log (eng (m - 1)) - Real.log (eng (m - 2))) / 2

/-- Log bin width of bin j of an m-point energy abscissa. -/
def get_log_bin_width (m : ℕ) (eng : ℕ → ℝ) (j : ℕ) : ℝ :=
  log_bin_bound m eng (j + 1) - log_bin_bound m eng j

/-! ### The Spectra container, from src/darkhistory/spec/spectra.py -/

/-- The representation mode of a container: raw counts per bin, or a density
per unit energy (spectra.py attribute spec_type). -/
inductive SpecType where
  | N : SpecType
  | dNdE : SpecType
deriving DecidableEq

/-- The `Spectra` class (spectra.py lines 14-107): a 2-D grid of amplitudes,
one row per spectrum, on a shared energy abscissa, with per-row injection
energy and redshift tags and per-row underflow accumulators. -/
structure Spectra where
  nspec : ℕ
  neng : ℕ
  eng : ℕ → ℝ
  grid_vals : ℕ → ℕ → ℝ
  in_eng : ℕ → ℝ
  rs : ℕ → ℝ
  N_underflow : ℕ → ℝ
  eng_underflow : ℕ → ℝ
  spec_type : SpecType

/-- dN/dlogE of row i at bin j (spectra.py lines 563-570): the grid value
multiplied by the energy in dNdE mode, or divided by the log bin width in
N mode. -/
def Spectra.dNdlogE (s : Spectra) (i j : ℕ) : ℝ :=
  match s.spec_type with
  | SpecType.dNdE => s.grid_vals i j * s.eng j
  | SpecType.N => s.grid_vals i j / get_log_bin_width s.neng s.eng j

/-- Particle count of row i in bin j: entry (i, j) of `totN('bin')`
(spectra.py line 576): dNdlogE times the log bin width. -/
def Spectra.totN_bin (s : Spectra) (i j : ℕ) : ℝ :=
  s.dNdlogE i j * get_log_bin_width s.neng s.eng j

/-- Energy of row i in bin j: entry (i, j) of `toteng('bin')`
(spectra.py line 684): dNdlogE times energy times the log bin width. -/
def Spectra.toteng_bin (s : Spectra) (i j : ℕ) : ℝ :=
  s.dNdlogE i j * s.eng j * get_log_bin_width s.neng s.eng j

/-- Pointwise equality of the energy abscissae of two containers, as tested
by np.array_equal in spectra.py (same length and same entries). -/
def engEq (s o : Spectra) : Prop :=
  s.neng = o.neng ∧ ∀ j < s.neng, s.eng j = o.eng j

/-- Pointwise equality of two tag arrays of given lengths (np.array_equal). -/
def tagEq (na : ℕ) (a : ℕ → ℝ) (nb : ℕ) (b : ℕ → ℝ) : Prop :=
  na = nb ∧ ∀ i < na, a i = b i

/-- The empty tag array produced by the bare constructor `Spectra([])`
(spectra.py lines 99-107), modelled as the zero function. -/
def emptyTag : ℕ → ℝ := fun _ => 0

/-- `Spectra.__mul__` restricted to a `Spectra` right operand
(spectra.py lines 384-401).  Raises when the abscissae differ; otherwise
returns a fresh container whose tags and mode are copied only when they
agree between the operands, and whose mode otherwise stays at the
default dNdE of `Spectra([])`.  Grid shapes are assumed compatible
(numpy broadcasting of mismatched row counts is out of scope). -/
def Spectra.mul (s o : Spectra) : Except String Spectra :=
  if ¬ engEq s o then
    Except.error "the two spectra do not have the same abscissa."
  else
    Except.ok
      { nspec := s.nspec
        neng := s.neng
        eng := s.eng
        grid_vals := fun i j => s.grid_vals i j * o.grid_vals i j
        in_eng := if tagEq s.nspec s.in_eng o.nspec o.in_eng then s.in_eng else emptyTag
        rs := if tagEq s.nspec s.rs o.nspec o.rs then s.rs else emptyTag
        N_underflow := emptyTag
        eng_underflow := emptyTag
        spec_type := if s.spec_type = o.spec_type then s.spec_type else SpecType.dNdE }

/-- The reciprocal container built inside `Spectra.__truediv__`
(spectra.py lines 472-479): other fields are copied from the right operand
and the grid is inverted entrywise; the underflow arrays of `Spectra([])`
stay empty. -/
def Spectra.inv_spectra (o : Spectra) : Spectra :=
  { nspec := o.nspec
    neng := o.neng
    eng := o.eng
    grid_vals := fun i j => 1 / o.grid_vals i j
    in_eng := o.in_eng
    rs := o.rs
    N_underflow := emptyTag
    eng_underflow := emptyTag
    spec_type := o.spec_type }

/-- `Spectra.__truediv__` restricted to a `Spectra` right operand
(spectra.py lines 453-481): multiply by the reciprocal container. -/
def Spectra.truediv (s o : Spectra) : Except String Spectra :=
  Spectra.mul s (Spectra.inv_spectra o)

/-- Whether an `Except` result is a success. -/
def exceptOk {α : Type} (x : Except String α) : Bool :=
  match x with
  | Except.ok _ => true
  | Except.error _ => false

/-- `Spectra.switch_spec_type` (spectra.py lines 511-519): toggles between
counts-per-bin and density-per-unit-energy using the log-bin-width
relation. -/
def Spectra.switch_spec_type (s : Spectra) : Spectra :=
  match s.spec_type with
  | SpecType.N =>
      { s with
        grid_vals := fun i j =>
          s.grid_vals i j / (s.eng j * get_log_bin_width s.neng s.eng j)
        spec_type := SpecType.dNdE }
  | SpecType.dNdE =>
      { s with
        grid_vals := fun i j =>
          s.grid_vals i j * s.eng j * get_log_bin_width s.neng s.eng j
        spec_type := SpecType.N }

/-- A log-uniformly spaced energy axis (spec section 3): at least two
samples, positive, with a constant ratio above one between consecutive
samples. -/
def Spectra.isLogSpaced (s : Spectra) : Prop :=
  2 ≤ s.neng ∧ 0 < s.eng 0 ∧
    ∃ r : ℝ, 1 < r ∧ ∀ j, j + 1 < s.neng → s.eng (j + 1) = r * s.eng j

/-! ### Conservative rebinning (spectra.py lines 827-954) -/

/-- The target abscissa extended by one synthetic bin on the left
(spectra.py lines 855-859): the inserted energy is
exp(log out0 - (log out1 - log out0)). -/
def newEng (out : ℕ → ℝ) (k : ℕ) : ℝ :=
  if k = 0 then
    Real.exp (Real.log (out 0) - (Real.log (out 1) - Real.log (out 0)))
  else
    out (k - 1)

/-- Index of the rightmost interpolation node (among nodes 0..K) whose
abscissa does not exceed x; 0 if there is none.  This is the segment-search
step of np.interp. -/
def segIdx (nE : ℕ → ℝ) (x : ℝ) : ℕ → ℕ
  | 0 => 0
  | k + 1 => if nE (k + 1) ≤ x then k + 1 else segIdx nE x k

/-- np.interp(x, nE, np.arange(nsz) - 1, left = -2, right = nsz)
(spectra.py lines 865-868), for nsz nodes nE 0, ..., nE (nsz-1):
-2 below the first node, nsz above the last node, and otherwise the
piecewise-linear interpolant of the node values -1, 0, ..., nsz - 2. -/
def npInterpIdx (nsz : ℕ) (nE : ℕ → ℝ) (x : ℝ) : ℝ :=
  if x < nE 0 then -2
  else if nE (nsz - 1) < x then (nsz : ℝ)
  else
    let i := segIdx nE x (nsz - 2)
    (i : ℝ) - 1 + (x - nE i) / (nE (i + 1) - nE i)

/-- Fractional bin index of source sample j in the extended target abscissa
(spectra.py lines 865-868). -/
def Spectra.binInd (s : Spectra) (n : ℕ) (out : ℕ → ℝ) (j : ℕ) : ℝ :=
  npInterpIdx (n + 1) (newEng out) (s.eng j)

/-- Source sample j lands below the extended target range
(spectra.py line 873: bin_ind < 0). -/
def Spectra.isLow (s : Spectra) (n : ℕ) (out : ℕ → ℝ) (j : ℕ) : Prop :=
  s.binInd n out j < 0

/-- Source sample j lands above the target range
(spectra.py line 874: bin_ind == new_eng.size). -/
def Spectra.isHigh (s : Spectra) (n : ℕ) (out : ℕ → ℝ) (j : ℕ) : Prop :=
  s.binInd n out j = (n : ℝ) + 1

/-- Source sample j lands in the regular range
(spectra.py lines 875-877: 0 <= bin_ind <= new_eng.size - 1). -/
def Spectra.isReg (s : Spectra) (n : ℕ) (out : ℕ → ℝ) (j : ℕ) : Prop :=
  0 ≤ s.binInd n out j ∧ s.binInd n out j ≤ (n : ℝ)

/-- The set of below-range source bins. -/
def Spectra.lowFilter (s : Spectra) (n : ℕ) (out : ℕ → ℝ) : Finset ℕ :=
  (Finset.range s.neng).filter (fun j => s.isLow n out j)

/-- The set of above-range source bins. -/
def Spectra.highFilter (s : Spectra) (n : ℕ) (out : ℕ → ℝ) : Finset ℕ :=
  (Finset.range s.neng).filter (fun j => s.isHigh n out j)

/-- The set of in-range source bins. -/
def Spectra.regFilter (s : Spectra) (n : ℕ) (out : ℕ → ℝ) : Finset ℕ :=
  (Finset.range s.neng).filter (fun j => s.isReg n out j)

/-- np.floor of the bin index of an in-range source sample, as a natural
number (spectra.py line 906); in-range indices are nonnegative. -/
def Spectra.regFloor (s : Spectra) (n : ℕ) (out : ℕ → ℝ) (j : ℕ) : ℕ :=
  (⌊s.binInd n out j⌋).toNat

/-- Lower destination bin of an in-range source sample, after the edge
adjustment of spectra.py line 911 (an index equal to new_eng.size - 2 is
lowered by one so that the last node is allocated to real bins). -/
def Spectra.regLow (s : Spectra) (n : ℕ) (out : ℕ → ℝ) (j : ℕ) : ℕ :=
  if s.regFloor n out j = n - 1 then n - 2 else s.regFloor n out j

/-- Upper destination bin of an in-range source sample, after the edge
adjustment of spectra.py line 912. -/
def Spectra.regUpp (s : Spectra) (n : ℕ) (out : ℕ → ℝ) (j : ℕ) : ℕ :=
  if s.regFloor n out j + 1 = n then n - 1 else s.regFloor n out j + 1

/-- The destination-mode conversion factor (spectra.py lines 893-897):
E dlogE of the extended target abscissa in dNdE mode, and 1 in N mode. -/
def Spectra.fac (s : Spectra) (n : ℕ) (out : ℕ → ℝ) (k : ℕ) : ℝ :=
  match s.spec_type with
  | SpecType.dNdE => newEng out k * get_log_bin_width (n + 1) (newEng out) k
  | SpecType.N => 1

/-- Share of the count of in-range source sample j given to its lower
destination bin, expressed in the destination mode
(spectra.py lines 917-920). -/
def Spectra.regDataLow (s : Spectra) (n : ℕ) (out : ℕ → ℝ) (i j : ℕ) : ℝ :=
  ((s.regUpp n out j : ℝ) - s.binInd n out j) * s.totN_bin i j
    / s.fac n out (s.regLow n out j + 1)

/-- Share of the count of in-range source sample j given to its upper
destination bin (spectra.py lines 921-924). -/
def Spectra.regDataUpp (s : Spectra) (n : ℕ) (out : ℕ → ℝ) (i j : ℕ) : ℝ :=
  (s.binInd n out j - (s.regLow n out j : ℝ)) * s.totN_bin i j
    / s.fac n out (s.regUpp n out j + 1)

/-- Count from below-range samples allocated to the first real target bin
rather than to underflow (spectra.py lines 929-931): the fractional part of
the bin index times the per-bin count, summed over below-range samples. -/
def Spectra.N_above (s : Spectra) (n : ℕ) (out : ℕ → ℝ) (i : ℕ) : ℝ :=
  ∑ j ∈ s.lowFilter n out,
    (s.binInd n out j - (⌊s.binInd n out j⌋ : ℝ)) * s.totN_bin i j

/-- Energy assigned to the count `N_above`, at the energy of the first real
target bin (spectra.py line 932). -/
def Spectra.eng_above (s : Spectra) (n : ℕ) (out : ℕ → ℝ) (i : ℕ) : ℝ :=
  s.N_above n out i * newEng out 1

/-- Count added to the underflow accumulator of row i
(spectra.py line 934). -/
def Spectra.N_uf_add (s : Spectra) (n : ℕ) (out : ℕ → ℝ) (i : ℕ) : ℝ :=
  (∑ j ∈ s.lowFilter n out, s.totN_bin i j) - s.N_above n out i

/-- Energy added to the underflow accumulator of row i
(spectra.py lines 935-937). -/
def Spectra.eng_uf_add (s : Spectra) (n : ℕ) (out : ℕ → ℝ) (i : ℕ) : ℝ :=
  (∑ j ∈ s.lowFilter n out, s.toteng_bin i j) - s.eng_above n out i

/-- Amplitude placed in the first real target bin from below-range samples
(spectra.py line 938). -/
def Spectra.lowData (s : Spectra) (n : ℕ) (out : ℕ → ℝ) (i : ℕ) : ℝ :=
  s.N_above n out i / s.fac n out 1

/-- The scatter-add of spectra.py lines 942-946, written as a gather: entry
(i, k) of the new grid on the extended abscissa collects the lower-bin
shares targeted at k, the upper-bin shares targeted at k, and (for k = 1)
the below-range contribution. -/
def Spectra.newData (s : Spectra) (n : ℕ) (out : ℕ → ℝ) (i k : ℕ) : ℝ :=
  (if k = 1 then s.lowData n out i else 0)
    + (∑ j ∈ (s.regFilter n out).filter (fun j => s.regLow n out j + 1 = k),
        s.regDataLow n out i j)
    + (∑ j ∈ (s.regFilter n out).filter (fun j => s.regUpp n out j + 1 = k),
        s.regDataUpp n out i j)

/-- The container state assigned at the end of a successful rebin
(spectra.py lines 951-954): the extended grid with the synthetic first bin
stripped, the target abscissa, and incremented underflow accumulators.
The tags and the mode are not assigned by the source and are copied. -/
def Spectra.rebinResult (s : Spectra) (n : ℕ) (out : ℕ → ℝ) : Spectra :=
  { nspec := s.nspec
    neng := n
    eng := fun j => newEng out (j + 1)
    grid_vals := fun i j => s.newData n out i (j + 1)
    in_eng := s.in_eng
    rs := s.rs
    N_underflow := fun i => s.N_underflow i + s.N_uf_add n out i
    eng_underflow := fun i => s.eng_underflow i + s.eng_uf_add n out i
    spec_type := s.spec_type }

/-- `Spectra.rebin` (spectra.py lines 827-954) onto a target abscissa of
length n.  Raises when the target is not strictly increasing. -/
def Spectra.rebin (s : Spectra) (n : ℕ) (out : ℕ → ℝ) : Except String Spectra :=
  if ∀ k, k + 1 < n → out k < out (k + 1) then
    Except.ok (s.rebinResult n out)
  else
    Except.error "new abscissa must be ordered in increasing energy."

/-- A valid rebin target abscissa as used by the conservation claims: at
least two points (the synthetic underflow bin of spectra.py line 855 reads
out_eng[1]), a positive first point (energies; logs are taken), and
strictly increasing (checked at spectra.py line 845). -/
def validTarget (n : ℕ) (out : ℕ → ℝ) : Prop :=
  2 ≤ n ∧ 0 < out 0 ∧ ∀ k, k + 1 < n → out k < out (k + 1)

/-- The in-place view of a `rebin` call: the raised message (if any)
together with the state of the container after the call.  The source
raises at line 845-846 before any field is assigned (all mutation happens
at lines 951-954), so on error the state is the original container. -/
def Spectra.rebinInPlace (s : Spectra) (n : ℕ) (out : ℕ → ℝ) :
    Option String × Spectra :=
  match s.rebin n out with
  | Except.ok t => (none, t)
  | Except.error e => (some e, s)

/-! ### The adaptive ICS spectrum evaluator,
from src/darkhistory/electrons/ics/ics_spectrum.py.

The numerical kernels called by the evaluator (the beta-expansion terms from
darkhistory.electrons.ics.nonrel_diff_terms, the Bose-Einstein integrals
from darkhistory.electrons.ics.bose_einstein_integrals, and the
interp_func interpolator of TransFuncAtRedshift) are code of this
repository that is not under src/.  They are treated as opaque value
functions passed in as parameters: the claims checked here concern the
dispatch, clamping and rescaling built around them in ics_spectrum.py. -/

/-- The zero floor applied to every returned spectrum array
(ics_spectrum.py lines 717, 887, 1031): values below 1e-100 become
exactly 0. -/
def zeroFloor (x : ℝ) : ℝ :=
  if x < 1e-100 then 0 else x

/-- Lorentz gamma from the electron kinetic energy
(ics_spectrum.py line 633). -/
def ics_gamma (kin : ℝ) : ℝ :=
  kin / phys.me + 1

/-- Electron velocity beta from the kinetic energy
(ics_spectrum.py line 635). -/
def ics_beta (kin : ℝ) : ℝ :=
  Real.sqrt (kin / phys.me * (ics_gamma kin + 1) / ics_gamma kin ^ 2)

/-- The expansion-eligibility test of nonrel_spec
(ics_spectrum.py lines 653-656): beta < 0.01 and photeng/T < 0.1/beta. -/
def whereDiff (T kin phot : ℝ) : Prop :=
  ics_beta kin < 0.01 ∧ phot / T < 0.1 / ics_beta kin

/-- The per-element relative error of the beta expansion as computed by
nonrel_spec (ics_spectrum.py lines 677-684): zero where the element was not
expansion-eligible (the epsrel array is initialized to zeros), and otherwise
the absolute value of err/value with the division guarded to 0 when the
value is 0.  The parameters dv and de are the opaque value and error
returned by nonrel_spec_diff for a (kinetic energy, photon energy) pair. -/
def epsrelAt (dv de : ℝ → ℝ → ℝ) (T kin phot : ℝ) : ℝ :=
  if whereDiff T kin phot then
    |if dv kin phot = 0 then 0 else de kin phot / dv kin phot|
  else 0

/-- The grid after the first masked assignment of nonrel_spec
(ics_spectrum.py lines 664-675): beta-expansion values on eligible
elements, zeros elsewhere. -/
def nonrelStep1 (dv : ℝ → ℝ → ℝ) (T kin phot : ℝ) : ℝ :=
  if whereDiff T kin phot then dv kin phot else 0

/-- The re-evaluation mask of nonrel_spec (ics_spectrum.py line 692):
elements never flagged eligible, or whose expansion relative error exceeds
1e-3. -/
def whereSeries (dv de : ℝ → ℝ → ℝ) (T kin phot : ℝ) : Prop :=
  ¬ whereDiff T kin phot ∨ 1e-3 < epsrelAt dv de T kin phot

/-- The grid after the second masked assignment of nonrel_spec
(ics_spectrum.py lines 699-703): analytic-series values (the opaque sv) on
the re-evaluation mask, previous values elsewhere. -/
def nonrelStep2 (dv de sv : ℝ → ℝ → ℝ) (T kin phot : ℝ) : ℝ :=
  if whereSeries dv de T kin phot then sv kin phot else nonrelStep1 dv T kin phot

/-- A returned element of nonrel_spec (ics_spectrum.py lines 716-717):
the dispatched value with the zero floor applied. -/
def nonrel_spec_entry (dv de sv : ℝ → ℝ → ℝ) (T kin phot : ℝ) : ℝ :=
  zeroFloor (nonrelStep2 dv de sv T kin phot)

/-- Entry (i, j) of the grid returned by nonrel_spec in outer-product
mode. -/
def nonrel_spec_grid (dv de sv : ℝ → ℝ → ℝ) (T : ℝ)
    (eleckineng photeng : ℕ → ℝ) (i j : ℕ) : ℝ :=
  nonrel_spec_entry dv de sv T (eleckineng i) (photeng j)

/-- The dispatch described by the specification sentence behind claim C3:
the beta-series value exactly when the element is expansion-eligible and
the relative error (0 when the value is 0) does not exceed 1e-3, and the
analytic-series value otherwise.  Stated from the claim wording, for
comparison with the masked-assignment dispatch of the source. -/
def claimDispatch (dv de sv : ℝ → ℝ → ℝ) (T kin phot : ℝ) : ℝ :=
  if whereDiff T kin phot ∧
      |if dv kin phot = 0 then 0 else de kin phot / dv kin phot| ≤ 1e-3 then
    dv kin phot
  else
    sv kin phot

/-- Pre-floor value of rel_spec at one (total electron energy, photon
energy) pair (ics_spectrum.py lines 764-884).  The sum of the four
Bose-Einstein-integral terms is the opaque parameter terms; elements whose
derived lower integration limit is not positive contribute zero. -/
def rel_spec_val (terms : ℝ → ℝ → ℝ) (T eleceng photeng : ℝ) : ℝ :=
  let gamma := eleceng / phys.me
  let Geq :=
    if 1 - photeng / eleceng ≠ 0 then
      (photeng / eleceng) / (1 - photeng / eleceng)
    else 0
  let B := phys.me / (4 * gamma) * Geq
  let lowlim := B / T
  let prefac :=
    6 * Real.pi * phys.thomson_xsec * phys.c * T / gamma ^ 2
      / (phys.ele_compton * phys.me) ^ 3
  prefac * (if 0 < lowlim then terms eleceng photeng else 0)

/-- A returned element of rel_spec (ics_spectrum.py lines 886-887): the
computed value with the zero floor applied. -/
def rel_spec_entry (terms : ℝ → ℝ → ℝ) (T eleceng photeng : ℝ) : ℝ :=
  zeroFloor (rel_spec_val terms T eleceng photeng)

/-- The paired-mode path of ics_spec (ics_spectrum.py lines 944-951).
With mismatched array lengths the explicit TypeError of line 946 is
raised.  With matched lengths, line 951 executes spec = np.zeros(gamma)
where gamma = eleckineng/me + 1 is a float64 array; numpy rejects a float
array as a shape argument (float64 does not implement the index protocol),
so the call raises a TypeError before any spectrum value is computed. -/
def ics_spec_as_pairs (nel nph : ℕ) : Except String (ℕ → ℝ) :=
  if nel ≠ nph then
    Except.error "Photon and electron energy arrays must have the same length for pairwise computation."
  else
    Except.error "TypeError: np.zeros received a float64 array as shape; float64 cannot be interpreted as an integer"

/-- Pre-floor entry (i, j) of the grid assembled by ics_spec in
outer-product mode (ics_spectrum.py lines 941-1027).  Rows with
gamma > 20 use the relativistic branch, the rest the non-relativistic
branch.  When a reference transfer function is supplied its interpolator
(modelled from the spec: interp_func is a 2-D logarithmic interpolator,
queried at the log photon and log electron energies; it is not under src/)
replaces the kernel computation, rescaled by y^4 resp. y^2 where
y = T / TCMB(400) is the ratio of the bath temperature to the reference
temperature. -/
def ics_spec_grid (relTF nonrelTF : Option (ℝ → ℝ → ℝ))
    (relTerms dv de sv : ℝ → ℝ → ℝ) (T : ℝ)
    (eleckineng photeng : ℕ → ℝ) (i j : ℕ) : ℝ :=
  let gamma := eleckineng i / phys.me + 1
  let eleceng := eleckineng i + phys.me
  let y := T / phys.TCMB 400
  if 20 < gamma then
    match relTF with
    | some F => y ^ 4 * F (Real.log (y * photeng j)) (Real.log (y * eleceng))
    | none => rel_spec_val relTerms T eleceng (photeng j)
  else
    match nonrelTF with
    | some G => y ^ 2 * G (Real.log (photeng j / y)) (Real.log (eleckineng i))
    | none => nonrelStep2 dv de sv T (eleckineng i) (photeng j)

/-- A returned entry of ics_spec in outer-product mode
(ics_spectrum.py lines 1030-1031): the assembled grid with the zero floor
applied. -/
def ics_spec_entry (relTF nonrelTF : Option (ℝ → ℝ → ℝ))
    (relTerms dv de sv : ℝ → ℝ → ℝ) (T : ℝ)
    (eleckineng photeng : ℕ → ℝ) (i j : ℕ) : ℝ :=
  zeroFloor (ics_spec_grid relTF nonrelTF relTerms dv de sv T eleckineng photeng i j)

/-! ### Concrete containers and abscissae used by witnesses and
counterexamples -/

/-- A two-point log-spaced abscissa 3, 6 (ratio 2). -/
def engA : ℕ → ℝ := fun j => if j = 0 then 3 else 6

/-- A one-row counts-mode container on the abscissa 3, 6 with unit
amplitudes and empty underflow. -/
def csA : Spectra :=
  { nspec := 1
    neng := 2
    eng := engA
    grid_vals := fun _ _ => 1
    in_eng := fun _ => 10
    rs := fun _ => 2
    N_underflow := fun _ => 0
    eng_underflow := fun _ => 0
    spec_type := SpecType.N }

/-- A coarser strictly increasing two-point target abscissa 4, 16. -/
def outA : ℕ → ℝ := fun k => if k = 0 then 4 else 16

/-- A decreasing (invalid) target abscissa 4, 2. -/
def outBad : ℕ → ℝ := fun k => if k = 0 then 4 else 2

/-- A two-point log-spaced abscissa 1, 6: the first sample sits exactly at
the synthetic underflow-bin energy of the target abscissa 4, 16. -/
def engL : ℕ → ℝ := fun j => if j = 0 then 1 else 6

/-- A one-row counts-mode container on the abscissa 1, 6. -/
def csL : Spectra :=
  { nspec := 1
    neng := 2
    eng := engL
    grid_vals := fun _ _ => 1
    in_eng := fun _ => 10
    rs := fun _ => 2
    N_underflow := fun _ => 0
    eng_underflow := fun _ => 0
    spec_type := SpecType.N }

/-- A two-point log-spaced abscissa 1, 2 (ratio 2). -/
def engB : ℕ → ℝ := fun j => if j = 0 then 1 else 2

/-- A one-row density-mode container on the abscissa 1, 2. -/
def csB : Spectra :=
  { nspec := 1
    neng := 2
    eng := engB
    grid_vals := fun i j => (i : ℝ) + (j : ℝ) + 5
    in_eng := fun _ => 7
    rs := fun _ => 3
    N_underflow := fun _ => 0
    eng_underflow := fun _ => 0
    spec_type := SpecType.dNdE }

/-- A one-bin counts-mode container on the abscissa 1. -/
def csM1 : Spectra :=
  { nspec := 1
    neng := 1
    eng := fun _ => 1
    grid_vals := fun _ _ => 2
    in_eng := fun _ => 5
    rs := fun _ => 3
    N_underflow := fun _ => 0
    eng_underflow := fun _ => 0
    spec_type := SpecType.N }

/-- A one-bin density-mode container on the same abscissa as csM1 but with
the other mode. -/
def csM2 : Spectra :=
  { nspec := 1
    neng := 1
    eng := fun _ => 1
    grid_vals := fun _ _ => 4
    in_eng := fun _ => 5
    rs := fun _ => 3
    N_underflow := fun _ => 0
    eng_underflow := fun _ => 0
    spec_type := SpecType.dNdE }

/-! ### Lemmas about log bin widths -/

theorem log_bin_bound_zero (m : ℕ) (eng : ℕ → ℝ) :
    log_bin_bound m eng 0
      = Real.log (eng 0) - (Real.log (eng 1) - Real.log (eng 0)) / 2 := by
  simp [log_bin_bound]

theorem log_bin_bound_mid (m : ℕ) (eng : ℕ → ℝ) (k : ℕ) (h1 : k ≠ 0) (h2 : k < m) :
    log_bin_bound m eng k = (Real.log (eng (k - 1)) + Real.log (eng k)) / 2 := by
  rw [log_bin_bound, if_neg h1, if_pos h2]

theorem log_bin_bound_top (m : ℕ) (eng : ℕ → ℝ) (k : ℕ) (h1 : k ≠ 0) (h2 : ¬ k < m) :
    log_bin_bound m eng k
      = Real.log (eng (m - 1))
        + (Real.log (eng (m - 1)) - Real.log (eng (m - 2))) / 2 := by
  rw [log_bin_bound, if_neg h1, if_neg h2]

theorem get_log_bin_width_first (m : ℕ) (eng : ℕ → ℝ) (hm : 2 ≤ m) :
    get_log_bin_width m eng 0 = Real.log (eng 1) - Real.log (eng 0) := by
  rw [get_log_bin_width, log_bin_bound_zero,
    log_bin_bound_mid m eng 1 one_ne_zero (by omega)]
  ring

theorem get_log_bin_width_mid (m : ℕ) (eng : ℕ → ℝ) (j : ℕ)
    (h1 : 1 ≤ j) (h2 : j + 1 < m) :
    get_log_bin_width m eng j
      = (Real.log (eng (j + 1)) - Real.log (eng (j - 1))) / 2 := by
  rw [get_log_bin_width, log_bin_bound_mid m eng (j + 1) (by omega) h2,
    log_bin_bound_mid m eng j (by omega) (by omega)]
  have h3 : j + 1 - 1 = j := by omega
  rw [h3]; ring

theorem get_log_bin_width_last (m : ℕ) (eng : ℕ → ℝ) (hm : 2 ≤ m) :
    get_log_bin_width m eng (m - 1)
      = Real.log (eng (m - 1)) - Real.log (eng (m - 2)) := by
  have h : m - 1 + 1 = m := by omega
  rw [get_log_bin_width, h, log_bin_bound_top m eng m (by omega) (lt_irrefl m),
    log_bin_bound_mid m eng (m - 1) (by omega) (by omega)]
  have h2 : m - 1 - 1 = m - 2 := by omega
  rw [h2]; ring

theorem get_log_bin_width_pos (m : ℕ) (eng : ℕ → ℝ) (hm : 2 ≤ m)
    (hpos : ∀ j < m, 0 < eng j)
    (hmono : ∀ j, j + 1 < m → eng j < eng (j + 1)) :
    ∀ j < m, 0 < get_log_bin_width m eng j := by
  intro j hj
  by_cases hj0 : j = 0
  · subst hj0
    rw [get_log_bin_width_first m eng hm]
    have h := Real.log_lt_log (hpos 0 (by omega)) (hmono 0 (by omega))
    linarith
  by_cases hjl : j = m - 1
  · subst hjl
    rw [get_log_bin_width_last m eng hm]
    have ha := hmono (m - 2) (by omega)
    have e : m - 2 + 1 = m - 1 := by omega
    rw [e] at ha
    have h := Real.log_lt_log (hpos (m - 2) (by omega)) ha
    linarith
  · have h1 : 1 ≤ j := by omega
    have h2 : j + 1 < m := by omega
    rw [get_log_bin_width_mid m eng j h1 h2]
    have ha := hmono (j - 1) (by omega)
    have e : j - 1 + 1 = j := by omega
    rw [e] at ha
    have hb := hmono j h2
    have hc : Real.log (eng (j - 1)) < Real.log (eng (j + 1)) :=
      Real.log_lt_log (hpos (j - 1) (by omega)) (lt_trans ha hb)
    linarith

/-! ### Lemmas about log-spaced axes -/

theorem isLogSpaced_pos (s : Spectra) (h : s.isLogSpaced) :
    ∀ j < s.neng, 0 < s.eng j := by
  obtain ⟨hm, h0, r, hr, hstep⟩ := h
  intro j
  induction j with
  | zero => intro _; exact h0
  | succ k ih =>
      intro hk
      rw [hstep k (by omega)]
      exact mul_pos (by linarith) (ih (by omega))

theorem isLogSpaced_mono (s : Spectra) (h : s.isLogSpaced) :
    ∀ j, j + 1 < s.neng → s.eng j < s.eng (j + 1) := by
  intro j hj
  have hp := isLogSpaced_pos s h j (by omega)
  obtain ⟨hm, h0, r, hr, hstep⟩ := h
  rw [hstep j hj]
  nlinarith

/-- C6: for every Spectra on a log-spaced energy axis, calling
switch_spec_type twice restores every grid amplitude exactly and restores
the original spec_type: the mode switch is its own inverse. -/
theorem C6_switch_spec_type_involution (s : Spectra) (hls : s.isLogSpaced) :
    (∀ i j, j < s.neng →
      s.switch_spec_type.switch_spec_type.grid_vals i j = s.grid_vals i j)
    ∧ s.switch_spec_type.switch_spec_type.spec_type = s.spec_type := by
  have hm := hls.1
  have hpos := isLogSpaced_pos s hls
  have hmono := isLogSpaced_mono s hls
  have hwpos := get_log_bin_width_pos s.neng s.eng hm hpos hmono
  constructor
  · intro i j hj
    have he : s.eng j ≠ 0 := ne_of_gt (hpos j hj)
    have hw : get_log_bin_width s.neng s.eng j ≠ 0 := ne_of_gt (hwpos j hj)
    cases hst : s.spec_type with
    | N =>
        simp only [Spectra.switch_spec_type, hst]
        field_simp
        ring
    | dNdE =>
        simp only [Spectra.switch_spec_type, hst]
        field_simp
        ring
  · cases hst : s.spec_type <;> simp [Spectra.switch_spec_type, hst]

/-- Witness for C6 at a concrete two-bin density-mode container. -/
theorem C6_witness :
    csB.switch_spec_type.switch_spec_type.grid_vals 0 1 = csB.grid_vals 0 1
    ∧ csB.switch_spec_type.switch_spec_type.spec_type = csB.spec_type := by
  have hls : csB.isLogSpaced := by
    refine ⟨by norm_num [csB], by norm_num [csB, engB], 2, by norm_num, ?_⟩
    intro j hj
    have hj0 : j = 0 := by norm_num [csB] at hj; omega
    subst hj0
    norm_num [csB, engB]
  exact ⟨(C6_switch_spec_type_involution csB hls).1 0 1 (by norm_num [csB]),
    (C6_switch_spec_type_involution csB hls).2⟩

/-- C7 (amended): multiplying or dividing one Spectra by another raises
exactly when the energy abscissae differ; a mode mismatch alone does not
raise. -/
theorem C7_mul_div_abscissa_only (s o : Spectra) :
    (¬ engEq s o →
      s.mul o = Except.error "the two spectra do not have the same abscissa."
      ∧ s.truediv o
          = Except.error "the two spectra do not have the same abscissa.")
    ∧ (engEq s o →
      exceptOk (s.mul o) = true ∧ exceptOk (s.truediv o) = true) := by
  constructor
  · intro h
    constructor
    · rw [Spectra.mul, if_pos h]
    · rw [Spectra.truediv, Spectra.mul,
        if_pos (show ¬ engEq s o.inv_spectra from h)]
  · intro h
    constructor
    · rw [Spectra.mul, if_neg (not_not_intro h)]
      rfl
    · rw [Spectra.truediv, Spectra.mul,
        if_neg (not_not_intro (show engEq s o.inv_spectra from h))]
      rfl

/-- Counterexample to C7 as stated: two containers with the same energy
abscissa but different modes (counts vs density) multiply successfully,
with no error raised. -/
theorem C7_counterexample :
    exceptOk (csM1.mul csM2) = true ∧ csM1.spec_type ≠ csM2.spec_type := by
  constructor
  · have h : engEq csM1 csM2 := ⟨rfl, fun j _ => rfl⟩
    rw [Spectra.mul, if_neg (not_not_intro h)]
    rfl
  · decide

/-- Witness for C7 at a concrete pair of identical-abscissa containers. -/
theorem C7_witness :
    exceptOk (csM2.mul csM2) = true ∧ exceptOk (csM2.truediv csM2) = true :=
  (C7_mul_div_abscissa_only csM2 csM2).2 ⟨rfl, fun _ _ => rfl⟩

/-- C8: rebin raises on a target abscissa that is not strictly increasing,
and the container state after the call is unchanged: the check happens
before any mutation. -/
theorem C8_rebin_rejects_nonmonotonic (s : Spectra) (n : ℕ) (out : ℕ → ℝ)
    (hbad : ¬ ∀ k, k + 1 < n → out k < out (k + 1)) :
    s.rebinInPlace n out
      = (some "new abscissa must be ordered in increasing energy.", s) := by
  simp only [Spectra.rebinInPlace, Spectra.rebin]
  rw [if_neg hbad]

/-- Witness for C8 at a concrete decreasing target abscissa. -/
theorem C8_witness :
    csA.rebinInPlace 2 outBad
      = (some "new abscissa must be ordered in increasing energy.", csA) := by
  apply C8_rebin_rejects_nonmonotonic
  intro h
  have h0 := h 0 (by norm_num)
  norm_num [outBad] at h0

/-- C10: a successful rebin modifies only the abscissa, the grid and the
underflow accumulators; the injection-energy tags, the redshift tags and
the mode flag are unchanged. -/
theorem C10_rebin_frame (s : Spectra) (n : ℕ) (out : ℕ → ℝ)
    (hok : (s.rebinInPlace n out).1 = none) :
    (s.rebinInPlace n out).2.in_eng = s.in_eng
    ∧ (s.rebinInPlace n out).2.rs = s.rs
    ∧ (s.rebinInPlace n out).2.spec_type = s.spec_type := by
  by_cases h : ∀ k, k + 1 < n → out k < out (k + 1)
  · simp only [Spectra.rebinInPlace, Spectra.rebin]
    rw [if_pos h]
    exact ⟨rfl, rfl, rfl⟩
  · simp only [Spectra.rebinInPlace, Spectra.rebin] at hok
    rw [if_neg h] at hok
    simp at hok

/-- Witness for C10 at a concrete container and valid target abscissa. -/
theorem C10_witness :
    (csA.rebinInPlace 2 outA).2.in_eng = csA.in_eng
    ∧ (csA.rebinInPlace 2 outA).2.rs = csA.rs
    ∧ (csA.rebinInPlace 2 outA).2.spec_type = csA.spec_type := by
  apply C10_rebin_frame
  have h : ∀ k, k + 1 < 2 → outA k < outA (k + 1) := by
    intro k hk
    have hk0 : k = 0 := by omega
    subst hk0
    norm_num [outA]
  simp only [Spectra.rebinInPlace, Spectra.rebin]
  rw [if_pos h]

/-- C2 (code bug): the paired-mode entry point raises on mismatched array
lengths as claimed, but with matched lengths it also raises (np.zeros on a
float64 shape array, ics_spectrum.py line 951) instead of returning the
claimed same-length array. -/
theorem C2_ics_spec_pairs_always_raises :
    ics_spec_as_pairs 1 2
      = Except.error "Photon and electron energy arrays must have the same length for pairwise computation."
    ∧ ics_spec_as_pairs 1 1
      = Except.error "TypeError: np.zeros received a float64 array as shape; float64 cannot be interpreted as an integer" := by
  constructor <;> rfl

/-- C3: each grid element of nonrel_spec is dispatched to the
beta-expansion value exactly when the element satisfies the eligibility
test (beta below 0.01 and photeng/T below 0.1/beta) and the relative
error of the expansion (0 when the value is 0) is at most 1e-3, and to
the analytic-series value otherwise; the zero floor is applied to the
dispatched value. -/
theorem C3_nonrel_spec_dispatch (dv de sv : ℝ → ℝ → ℝ) (T : ℝ)
    (eleckineng photeng : ℕ → ℝ) (i j : ℕ) :
    nonrelStep2 dv de sv T (eleckineng i) (photeng j)
      = claimDispatch dv de sv T (eleckineng i) (photeng j)
    ∧ nonrel_spec_grid dv de sv T eleckineng photeng i j
      = zeroFloor (claimDispatch dv de sv T (eleckineng i) (photeng j)) := by
  have key : ∀ kin phot : ℝ,
      nonrelStep2 dv de sv T kin phot = claimDispatch dv de sv T kin phot := by
    intro kin phot
    by_cases hd : whereDiff T kin phot
    · have heps : epsrelAt dv de T kin phot
          = |if dv kin phot = 0 then 0 else de kin phot / dv kin phot| := by
        rw [epsrelAt, if_pos hd]
      by_cases he :
          (1e-3 : ℝ) < |if dv kin phot = 0 then 0 else de kin phot / dv kin phot|
      · have hws : whereSeries dv de T kin phot := Or.inr (by rw [heps]; exact he)
        rw [nonrelStep2, if_pos hws, claimDispatch, if_neg]
        intro hc
        exact absurd hc.2 (not_le_of_lt he)
      · have hws : ¬ whereSeries dv de T kin phot := by
          intro hws
          rcases hws with h | h
          · exact h hd
          · rw [heps] at h
            exact he h
        rw [nonrelStep2, if_neg hws, nonrelStep1, if_pos hd, claimDispatch,
          if_pos ⟨hd, le_of_not_lt he⟩]
    · have hws : whereSeries dv de T kin phot := Or.inl hd
      rw [nonrelStep2, if_pos hws, claimDispatch, if_neg]
      intro hc
      exact hd hc.1
  refine ⟨key _ _, ?_⟩
  rw [nonrel_spec_grid, nonrel_spec_entry, key]

/-- C4: every value returned by the embedded nonrel_spec, rel_spec and
ics_spec grids is either exactly 0 or at least 1e-100, and none is
negative. -/
theorem C4_zero_floor_everywhere
    (relTF nonrelTF : Option (ℝ → ℝ → ℝ)) (relTerms dv de sv : ℝ → ℝ → ℝ)
    (T eleceng photengV : ℝ) (eleckineng photeng : ℕ → ℝ) (i j : ℕ) :
    ((nonrel_spec_grid dv de sv T eleckineng photeng i j = 0
        ∨ 1e-100 ≤ nonrel_spec_grid dv de sv T eleckineng photeng i j)
      ∧ 0 ≤ nonrel_spec_grid dv de sv T eleckineng photeng i j)
    ∧ ((rel_spec_entry relTerms T eleceng photengV = 0
        ∨ 1e-100 ≤ rel_spec_entry relTerms T eleceng photengV)
      ∧ 0 ≤ rel_spec_entry relTerms T eleceng photengV)
    ∧ ((ics_spec_entry relTF nonrelTF relTerms dv de sv T eleckineng photeng i j = 0
        ∨ 1e-100 ≤ ics_spec_entry relTF nonrelTF relTerms dv de sv T eleckineng photeng i j)
      ∧ 0 ≤ ics_spec_entry relTF nonrelTF relTerms dv de sv T eleckineng photeng i j) := by
  have key : ∀ x : ℝ, (zeroFloor x = 0 ∨ 1e-100 ≤ zeroFloor x) ∧ 0 ≤ zeroFloor x := by
    intro x
    by_cases h : x < 1e-100
    · rw [zeroFloor, if_pos h]
      exact ⟨Or.inl rfl, le_refl 0⟩
    · rw [zeroFloor, if_neg h]
      have h2 : (1e-100 : ℝ) ≤ x := le_of_not_lt h
      exact ⟨Or.inr h2, le_trans (by norm_num) h2⟩
  exact ⟨key _, key _, key _⟩

/-- C9: with reference transfer functions supplied, every relativistic
entry (gamma above 20) of the assembled ics_spec grid is the interpolated
reference value rescaled by the fourth power of the temperature ratio
y = T / TCMB(400), and every non-relativistic entry is the interpolated
reference value rescaled by the second power of y. -/
theorem C9_ics_spec_tf_rescaling (F G relTerms dv de sv : ℝ → ℝ → ℝ) (T : ℝ)
    (eleckineng photeng : ℕ → ℝ) (i j : ℕ) :
    (20 < eleckineng i / phys.me + 1 →
      ics_spec_grid (some F) (some G) relTerms dv de sv T eleckineng photeng i j
        = (T / phys.TCMB 400) ^ 4
          * F (Real.log (T / phys.TCMB 400 * photeng j))
              (Real.log (T / phys.TCMB 400 * (eleckineng i + phys.me))))
    ∧ (¬ 20 < eleckineng i / phys.me + 1 →
      ics_spec_grid (some F) (some G) relTerms dv de sv T eleckineng photeng i j
        = (T / phys.TCMB 400) ^ 2
          * G (Real.log (photeng j / (T / phys.TCMB 400)))
              (Real.log (eleckineng i))) := by
  constructor
  · intro h
    simp only [ics_spec_grid]
    rw [if_pos h]
  · intro h
    simp only [ics_spec_grid]
    rw [if_neg h]

/-- Witness for C9 at a relativistic electron energy (2e7 eV kinetic,
gamma about 40) and a non-relativistic one (1 eV kinetic). -/
theorem C9_witness :
    ics_spec_grid (some fun _ _ => 1) (some fun _ _ => 1) (fun _ _ => 1)
        (fun _ _ => 1) (fun _ _ => 1) (fun _ _ => 1) 1
        (fun _ => 2e7) (fun _ => 1) 0 0
      = (1 / phys.TCMB 400) ^ 4 * 1
    ∧ ics_spec_grid (some fun _ _ => 1) (some fun _ _ => 1) (fun _ _ => 1)
        (fun _ _ => 1) (fun _ _ => 1) (fun _ _ => 1) 1
        (fun _ => 1) (fun _ => 1) 0 0
      = (1 / phys.TCMB 400) ^ 2 * 1 := by
  constructor
  · exact (C9_ics_spec_tf_rescaling _ _ _ _ _ _ 1 (fun _ => 2e7) (fun _ => 1)
      0 0).1 (by norm_num [phys.me])
  · exact (C9_ics_spec_tf_rescaling _ _ _ _ _ _ 1 (fun _ => 1) (fun _ => 1)
      0 0).2 (by norm_num [phys.me])

/-! ### Lemmas about the extended target abscissa -/

theorem newEng_succ (out : ℕ → ℝ) (k : ℕ) : newEng out (k + 1) = out k := by
  simp [newEng]

theorem log_bin_bound_shift (n : ℕ) (out : ℕ → ℝ) (hn : 2 ≤ n) (k : ℕ)
    (hk : k ≤ n) :
    log_bin_bound (n + 1) (newEng out) (k + 1) = log_bin_bound n out k := by
  by_cases hk0 : k = 0
  · subst hk0
    rw [log_bin_bound_mid (n + 1) (newEng out) 1 one_ne_zero (by omega),
      log_bin_bound_zero]
    norm_num [newEng, Real.log_exp]
    ring
  · by_cases hkn : k = n
    · subst hkn
      rw [log_bin_bound_top (k + 1) (newEng out) (k + 1) (by omega) (by omega),
        log_bin_bound_top k out k (by omega) (lt_irrefl k)]
      have e1 : k + 1 - 1 = k := by omega
      have e2 : k + 1 - 2 = k - 1 := by omega
      rw [e1, e2]
      have g1 : newEng out k = out (k - 1) := by
        rw [newEng, if_neg (show ¬ k = 0 by omega)]
      have g2 : newEng out (k - 1) = out (k - 2) := by
        rw [newEng, if_neg (show ¬ k - 1 = 0 by omega)]
        congr 1
      rw [g1, g2]
    · have h2 : k < n := by omega
      rw [log_bin_bound_mid (n + 1) (newEng out) (k + 1) (by omega) (by omega),
        log_bin_bound_mid n out k hk0 h2]
      have e1 : k + 1 - 1 = k := by omega
      rw [e1]
      have g1 : newEng out k = out (k - 1) := by
        rw [newEng, if_neg hk0]
      rw [g1, newEng_succ]

theorem get_log_bin_width_shift (n : ℕ) (out : ℕ → ℝ) (hn : 2 ≤ n) (k : ℕ)
    (hk : k < n) :
    get_log_bin_width (n + 1) (newEng out) (k + 1) = get_log_bin_width n out k := by
  rw [get_log_bin_width, get_log_bin_width,
    log_bin_bound_shift n out hn (k + 1) (by omega),
    log_bin_bound_shift n out hn k (by omega)]

theorem out_pos (n : ℕ) (out : ℕ → ℝ) (hv : validTarget n out) :
    ∀ k < n, 0 < out k := by
  obtain ⟨hn, h0, hmono⟩ := hv
  intro k
  induction k with
  | zero => intro _; exact h0
  | succ j ih => intro hk; exact lt_trans (ih (by omega)) (hmono j hk)

theorem out_strictMono (n : ℕ) (out : ℕ → ℝ) (hv : validTarget n out) :
    ∀ a b, a < b → b < n → out a < out b := by
  intro a b hab hbn
  induction b with
  | zero => omega
  | succ j ih =>
      rcases Nat.lt_succ_iff_lt_or_eq.mp hab with h | h
      · exact lt_trans (ih h (by omega)) (hv.2.2 j hbn)
      · subst h; exact hv.2.2 a hbn

theorem newEng_pos (n : ℕ) (out : ℕ → ℝ) (hv : validTarget n out) :
    ∀ k ≤ n, 0 < newEng out k := by
  intro k hk
  cases k with
  | zero =>
      rw [newEng, if_pos rfl]
      exact Real.exp_pos _
  | succ j =>
      rw [newEng_succ]
      exact out_pos n out hv j (by omega)

theorem newEng_self_lt (n : ℕ) (out : ℕ → ℝ) (hv : validTarget n out) :
    newEng out 0 < out 0 := by
  obtain ⟨hn, h0, hmono⟩ := hv
  have h01 : out 0 < out 1 := hmono 0 (by omega)
  have hlog : Real.log (out 0) < Real.log (out 1) := Real.log_lt_log h0 h01
  calc newEng out 0
      = Real.exp (Real.log (out 0) - (Real.log (out 1) - Real.log (out 0))) := by
        rw [newEng, if_pos rfl]
    _ < Real.exp (Real.log (out 0)) := Real.exp_lt_exp.mpr (by linarith)
    _ = out 0 := Real.exp_log h0

theorem newEng_strictMono (n : ℕ) (out : ℕ → ℝ) (hv : validTarget n out) :
    ∀ a b, a < b → b ≤ n → newEng out a < newEng out b := by
  intro a b hab hbn
  cases a with
  | succ i =>
      cases b with
      | zero => omega
      | succ j =>
          rw [newEng_succ, newEng_succ]
          exact out_strictMono n out hv i j (by omega) (by omega)
  | zero =>
      have key := newEng_self_lt n out hv
      cases b with
      | zero => omega
      | succ j =>
          rw [newEng_succ]
          rcases Nat.eq_zero_or_pos j with hj | hj
          · subst hj; exact key
          · exact lt_trans key (out_strictMono n out hv 0 j hj (by omega))

/-! ### Lemmas about the np.interp segment search -/

theorem segIdx_le (nE : ℕ → ℝ) (x : ℝ) (K : ℕ) : segIdx nE x K ≤ K := by
  induction K with
  | zero => simp [segIdx]
  | succ k ih =>
      rw [segIdx]
      by_cases h : nE (k + 1) ≤ x
      · rw [if_pos h]
      · rw [if_neg h]; omega

theorem segIdx_le_val (nE : ℕ → ℝ) (x : ℝ) (h0 : nE 0 ≤ x) (K : ℕ) :
    nE (segIdx nE x K) ≤ x := by
  induction K with
  | zero => simpa [segIdx] using h0
  | succ k ih =>
      rw [segIdx]
      by_cases h : nE (k + 1) ≤ x
      · rw [if_pos h]; exact h
      · rw [if_neg h]; exact ih

theorem segIdx_next (nE : ℕ → ℝ) (x : ℝ) (K : ℕ) :
    segIdx nE x K < K → x < nE (segIdx nE x K + 1) := by
  induction K with
  | zero => intro h; simp [segIdx] at h
  | succ k ih =>
      rw [segIdx]
      by_cases h : nE (k + 1) ≤ x
      · rw [if_pos h]; intro hc; omega
      · rw [if_neg h]
        intro hc
        rcases lt_or_eq_of_le (segIdx_le nE x k) with h2 | h2
        · exact ih h2
        · rw [h2]; exact lt_of_not_le h

/-! ### Lemmas about the fractional bin index -/

theorem npInterpIdx_below (nsz : ℕ) (nE : ℕ → ℝ) (x : ℝ) (h : x < nE 0) :
    npInterpIdx nsz nE x = -2 := by
  rw [npInterpIdx, if_pos h]

theorem npInterpIdx_above (nsz : ℕ) (nE : ℕ → ℝ) (x : ℝ) (h0 : ¬ x < nE 0)
    (h1 : nE (nsz - 1) < x) :
    npInterpIdx nsz nE x = nsz := by
  rw [npInterpIdx, if_neg h0, if_pos h1]

theorem npInterpIdx_in (n : ℕ) (out : ℕ → ℝ) (x : ℝ)
    (h0 : ¬ x < newEng out 0) (h1 : ¬ newEng out n < x) :
    npInterpIdx (n + 1) (newEng out) x
      = (segIdx (newEng out) x (n - 1) : ℝ) - 1
        + (x - newEng out (segIdx (newEng out) x (n - 1)))
          / (newEng out (segIdx (newEng out) x (n - 1) + 1)
             - newEng out (segIdx (newEng out) x (n - 1))) := by
  rw [npInterpIdx]
  simp only [show n + 1 - 1 = n from by omega, show n + 1 - 2 = n - 1 from by omega]
  rw [if_neg h0, if_neg h1]

/-- Basic bounds for a bin index in the interpolation range: the segment
index is at most n - 1, the fractional offset t lies in [0, 1] and is
strictly below 1 unless the segment is the last one, and the segment has
positive width. -/
theorem inRange_bounds (n : ℕ) (out : ℕ → ℝ) (hv : validTarget n out) (x : ℝ)
    (h0 : ¬ x < newEng out 0) (h1 : ¬ newEng out n < x) :
    segIdx (newEng out) x (n - 1) ≤ n - 1
    ∧ 0 < newEng out (segIdx (newEng out) x (n - 1) + 1)
        - newEng out (segIdx (newEng out) x (n - 1))
    ∧ 0 ≤ (x - newEng out (segIdx (newEng out) x (n - 1)))
          / (newEng out (segIdx (newEng out) x (n - 1) + 1)
             - newEng out (segIdx (newEng out) x (n - 1)))
    ∧ (x - newEng out (segIdx (newEng out) x (n - 1)))
          / (newEng out (segIdx (newEng out) x (n - 1) + 1)
             - newEng out (segIdx (newEng out) x (n - 1))) ≤ 1
    ∧ ((x - newEng out (segIdx (newEng out) x (n - 1)))
          / (newEng out (segIdx (newEng out) x (n - 1) + 1)
             - newEng out (segIdx (newEng out) x (n - 1))) < 1
        ∨ segIdx (newEng out) x (n - 1) = n - 1) := by
  have hn : 2 ≤ n := hv.1
  set i := segIdx (newEng out) x (n - 1) with hi
  have f1 : i ≤ n - 1 := segIdx_le _ _ _
  have f2 : newEng out i ≤ x := segIdx_le_val _ _ (le_of_not_lt h0) _
  have f3 : x ≤ newEng out (i + 1) := by
    rcases lt_or_eq_of_le f1 with h | h
    · exact le_of_lt (segIdx_next _ _ _ h)
    · have e : i + 1 = n := by omega
      rw [e]
      exact le_of_not_lt h1
  have f4 : 0 < newEng out (i + 1) - newEng out i := by
    have := newEng_strictMono n out hv i (i + 1) (by omega) (by omega)
    linarith
  refine ⟨f1, f4, ?_, ?_, ?_⟩
  · exact div_nonneg (by linarith) (le_of_lt f4)
  · rw [div_le_one f4]; linarith
  · rcases lt_or_eq_of_le f1 with h | h
    · left
      have hx := segIdx_next _ _ _ h
      rw [div_lt_one f4]
      linarith
    · right; exact h

/-- Trichotomy of the rebin classification: every source sample is
below-range, in-range or above-range. -/
theorem binInd_cases (s : Spectra) (n : ℕ) (out : ℕ → ℝ)
    (hv : validTarget n out) (j : ℕ) :
    s.isLow n out j ∨ s.isReg n out j ∨ s.isHigh n out j := by
  have hn : 2 ≤ n := hv.1
  by_cases h0 : s.eng j < newEng out 0
  · left
    rw [Spectra.isLow, Spectra.binInd, npInterpIdx_below _ _ _ h0]
    norm_num
  by_cases h1 : newEng out n < s.eng j
  · right; right
    rw [Spectra.isHigh, Spectra.binInd,
      npInterpIdx_above (n + 1) (newEng out) (s.eng j) h0 (by simpa using h1)]
    push_cast
    ring
  · obtain ⟨f1, f4, ft0, ft1, _⟩ := inRange_bounds n out hv (s.eng j) h0 h1
    have hval := npInterpIdx_in n out (s.eng j) h0 h1
    rcases lt_or_le (s.binInd n out j) 0 with h | h
    · left; exact h
    · right; left
      refine ⟨h, ?_⟩
      rw [Spectra.binInd, hval]
      have hc : ((segIdx (newEng out) (s.eng j) (n - 1) : ℕ) : ℝ) ≤ (n : ℝ) - 1 := by
        have : ((segIdx (newEng out) (s.eng j) (n - 1) : ℕ) : ℝ) ≤ ((n - 1 : ℕ) : ℝ) := by
          exact_mod_cast f1
        have : ((n - 1 : ℕ) : ℝ) = (n : ℝ) - 1 := by
          have : (1 : ℕ) ≤ n := by omega
          push_cast [this]
          ring
        linarith [‹((segIdx (newEng out) (s.eng j) (n - 1) : ℕ) : ℝ) ≤ ((n - 1 : ℕ) : ℝ)›]
      linarith

/-- Characterization of the destination bins of an in-range source sample:
the upper bin is one above the lower bin, both lie strictly inside the
extended abscissa, and the two allocation shares recombine the energies of
the two destination bins exactly to the energy of the source sample. -/
theorem reg_split (s : Spectra) (n : ℕ) (out : ℕ → ℝ) (hv : validTarget n out)
    (j : ℕ) (hreg : s.isReg n out j) :
    s.regUpp n out j = s.regLow n out j + 1
    ∧ s.regLow n out j + 1 < n
    ∧ ((s.regUpp n out j : ℝ) - s.binInd n out j)
          * newEng out (s.regLow n out j + 1)
        + (s.binInd n out j - (s.regLow n out j : ℝ))
          * newEng out (s.regUpp n out j + 1)
      = s.eng j := by
  have hn : 2 ≤ n := hv.1
  have h0 : ¬ s.eng j < newEng out 0 := by
    intro h
    have hb : s.binInd n out j = -2 := by
      rw [Spectra.binInd]
      exact npInterpIdx_below _ _ _ h
    have hc := hreg.1
    rw [hb] at hc
    linarith
  have h1 : ¬ newEng out n < s.eng j := by
    intro h
    have hb : s.binInd n out j = (n : ℝ) + 1 := by
      rw [Spectra.binInd,
        npInterpIdx_above (n + 1) (newEng out) (s.eng j) h0 (by simpa using h)]
      push_cast
      ring
    have hc := hreg.2
    rw [hb] at hc
    linarith
  obtain ⟨f1, f4, ft0, ft1, flast⟩ := inRange_bounds n out hv (s.eng j) h0 h1
  set i := segIdx (newEng out) (s.eng j) (n - 1) with hidef
  set t := (s.eng j - newEng out i) / (newEng out (i + 1) - newEng out i)
    with htdef
  have hval : s.binInd n out j = (i : ℝ) - 1 + t := by
    rw [Spectra.binInd, npInterpIdx_in n out (s.eng j) h0 h1]
  have hge1 : 1 ≤ i := by
    by_contra hlt
    have hi0 : i = 0 := by omega
    have hlt1 : t < 1 := by
      rcases flast with h | h
      · exact h
      · omega
    have hneg : s.binInd n out j < 0 := by
      rw [hval, hi0]
      push_cast
      linarith
    linarith [hreg.1]
  have htd : t * (newEng out (i + 1) - newEng out i) = s.eng j - newEng out i :=
    div_mul_cancel₀ _ (ne_of_gt f4)
  by_cases hcase : t < 1
  · have hfl : ⌊s.binInd n out j⌋ = (i : ℤ) - 1 := by
      rw [hval]
      refine Int.floor_eq_iff.mpr ⟨?_, ?_⟩
      · push_cast; linarith
      · push_cast; linarith
    have hrf : s.regFloor n out j = i - 1 := by
      rw [Spectra.regFloor, hfl]
      omega
    have hlow : s.regLow n out j = i - 1 := by
      rw [Spectra.regLow, hrf, if_neg]
      omega
    have hupp : s.regUpp n out j = i := by
      rw [Spectra.regUpp, hrf, if_neg (show ¬ i - 1 + 1 = n by omega)]
      omega
    refine ⟨by rw [hlow, hupp]; omega, by rw [hlow]; omega, ?_⟩
    rw [hlow, hupp, hval]
    have e1 : i - 1 + 1 = i := by omega
    rw [e1]
    have e2 : ((i - 1 : ℕ) : ℝ) = (i : ℝ) - 1 := by
      rw [Nat.cast_sub hge1]
      norm_num
    rw [e2]
    have key : ((i : ℝ) - ((i : ℝ) - 1 + t)) * newEng out i
          + (((i : ℝ) - 1 + t) - ((i : ℝ) - 1)) * newEng out (i + 1)
        = newEng out i + t * (newEng out (i + 1) - newEng out i) := by
      ring
    rw [key, htd]
    ring
  · have hieq : i = n - 1 := by
      rcases flast with h | h
      · exact absurd h hcase
      · exact h
    have ht1 : t = 1 := le_antisymm ft1 (le_of_not_lt hcase)
    have hvi : s.binInd n out j = (i : ℝ) := by
      rw [hval, ht1]
      ring
    have hfl : ⌊s.binInd n out j⌋ = (i : ℤ) := by
      rw [hvi]
      exact Int.floor_natCast i
    have hrf : s.regFloor n out j = i := by
      rw [Spectra.regFloor, hfl]
      omega
    have hlow : s.regLow n out j = n - 2 := by
      rw [Spectra.regLow, hrf, if_pos hieq]
    have hupp : s.regUpp n out j = n - 1 := by
      rw [Spectra.regUpp, hrf, if_pos (show i + 1 = n by omega)]
    have hxn : s.eng j = newEng out n := by
      have hd : s.eng j - newEng out i = newEng out (i + 1) - newEng out i := by
        rw [← htd, ht1, one_mul]
      have e : i + 1 = n := by omega
      rw [e] at hd
      linarith
    refine ⟨by rw [hlow, hupp]; omega, by rw [hlow]; omega, ?_⟩
    rw [hlow, hupp, hvi, hieq]
    have e1 : n - 2 + 1 = n - 1 := by omega
    have e2 : n - 1 + 1 = n := by omega
    rw [e1, e2, hxn]
    have c1 : ((n - 1 : ℕ) : ℝ) = (n : ℝ) - 1 := by
      rw [Nat.cast_sub (by omega)]
      norm_num
    have c2 : ((n - 2 : ℕ) : ℝ) = (n : ℝ) - 2 := by
      rw [Nat.cast_sub (by omega)]
      norm_num
    rw [c1, c2]
    ring

/-! ### Per-bin counts of the rebinned container -/

theorem log_bin_bound_shifted (n : ℕ) (out : ℕ → ℝ) (a : ℕ) :
    log_bin_bound n (fun j => newEng out (j + 1)) a = log_bin_bound n out a := by
  rw [log_bin_bound, log_bin_bound]
  simp only [newEng_succ]

theorem get_log_bin_width_shifted (n : ℕ) (out : ℕ → ℝ) (k : ℕ) :
    get_log_bin_width n (fun j => newEng out (j + 1)) k
      = get_log_bin_width n out k := by
  rw [get_log_bin_width, get_log_bin_width, log_bin_bound_shifted,
    log_bin_bound_shifted]

theorem fac_N (s : Spectra) (n : ℕ) (out : ℕ → ℝ)
    (hst : s.spec_type = SpecType.N) (k : ℕ) :
    s.fac n out k = 1 := by
  simp only [Spectra.fac, hst]

theorem fac_dNdE (s : Spectra) (n : ℕ) (out : ℕ → ℝ) (hn : 2 ≤ n)
    (hst : s.spec_type = SpecType.dNdE) (k : ℕ) (hk : k < n) :
    s.fac n out (k + 1) = out k * get_log_bin_width n out k := by
  simp only [Spectra.fac, hst]
  rw [newEng_succ, get_log_bin_width_shift n out hn k hk]

theorem fac_pos (s : Spectra) (n : ℕ) (out : ℕ → ℝ) (hv : validTarget n out) :
    ∀ k < n, 0 < s.fac n out (k + 1) := by
  intro k hk
  cases hst : s.spec_type with
  | N => rw [fac_N s n out hst]; norm_num
  | dNdE =>
      rw [fac_dNdE s n out hv.1 hst k hk]
      exact mul_pos (out_pos n out hv k hk)
        (get_log_bin_width_pos n out hv.1 (out_pos n out hv) hv.2.2 k hk)

theorem totN_bin_rebinResult_fac (s : Spectra) (n : ℕ) (out : ℕ → ℝ)
    (hv : validTarget n out) (i k : ℕ) (hk : k < n) :
    (s.rebinResult n out).totN_bin i k
      = s.newData n out i (k + 1) * s.fac n out (k + 1) := by
  have hw : 0 < get_log_bin_width n out k :=
    get_log_bin_width_pos n out hv.1 (out_pos n out hv) hv.2.2 k hk
  cases hst : s.spec_type with
  | N =>
      simp only [Spectra.totN_bin, Spectra.dNdlogE, Spectra.rebinResult, hst]
      rw [get_log_bin_width_shifted, div_mul_cancel₀ _ (ne_of_gt hw),
        fac_N s n out hst, mul_one]
  | dNdE =>
      simp only [Spectra.totN_bin, Spectra.dNdlogE, Spectra.rebinResult, hst]
      rw [get_log_bin_width_shifted, newEng_succ,
        fac_dNdE s n out hv.1 hst k hk]
      ring

theorem newData_mul_fac (s : Spectra) (n : ℕ) (out : ℕ → ℝ)
    (hv : validTarget n out) (i k : ℕ) (hk : k < n) :
    s.newData n out i (k + 1) * s.fac n out (k + 1)
      = (if k = 0 then s.N_above n out i else 0)
        + (∑ j ∈ (s.regFilter n out).filter
              (fun j => s.regLow n out j + 1 = k + 1),
            ((s.regUpp n out j : ℝ) - s.binInd n out j) * s.totN_bin i j)
        + (∑ j ∈ (s.regFilter n out).filter
              (fun j => s.regUpp n out j + 1 = k + 1),
            (s.binInd n out j - (s.regLow n out j : ℝ)) * s.totN_bin i j) := by
  have hf : s.fac n out (k + 1) ≠ 0 := ne_of_gt (fac_pos s n out hv k hk)
  rw [Spectra.newData, add_mul, add_mul]
  congr 1
  congr 1
  · by_cases hk0 : k = 0
    · subst hk0
      rw [if_pos rfl, if_pos rfl, Spectra.lowData]
      exact div_mul_cancel₀ _ hf
    · rw [if_neg (show ¬ k + 1 = 1 by omega), if_neg hk0, zero_mul]
  · rw [Finset.sum_mul]
    apply Finset.sum_congr rfl
    intro j hj
    have hcond : s.regLow n out j + 1 = k + 1 := (Finset.mem_filter.mp hj).2
    rw [Spectra.regDataLow, hcond]
    exact div_mul_cancel₀ _ hf
  · rw [Finset.sum_mul]
    apply Finset.sum_congr rfl
    intro j hj
    have hcond : s.regUpp n out j + 1 = k + 1 := (Finset.mem_filter.mp hj).2
    rw [Spectra.regDataUpp, hcond]
    exact div_mul_cancel₀ _ hf

theorem totN_bin_rebinResult (s : Spectra) (n : ℕ) (out : ℕ → ℝ)
    (hv : validTarget n out) (i k : ℕ) (hk : k < n) :
    (s.rebinResult n out).totN_bin i k
      = (if k = 0 then s.N_above n out i else 0)
        + (∑ j ∈ (s.regFilter n out).filter
              (fun j => s.regLow n out j + 1 = k + 1),
            ((s.regUpp n out j : ℝ) - s.binInd n out j) * s.totN_bin i j)
        + (∑ j ∈ (s.regFilter n out).filter
              (fun j => s.regUpp n out j + 1 = k + 1),
            (s.binInd n out j - (s.regLow n out j : ℝ)) * s.totN_bin i j) := by
  rw [totN_bin_rebinResult_fac s n out hv i k hk, newData_mul_fac s n out hv i k hk]

theorem regFilter_filter_low (s : Spectra) (n : ℕ) (out : ℕ → ℝ) (k : ℕ) :
    (s.regFilter n out).filter (fun j => s.regLow n out j + 1 = k + 1)
      = (s.regFilter n out).filter (fun j => s.regLow n out j = k) := by
  apply Finset.filter_congr
  intro j _
  constructor
  · intro h; omega
  · intro h; omega

theorem regFilter_filter_upp (s : Spectra) (n : ℕ) (out : ℕ → ℝ) (k : ℕ) :
    (s.regFilter n out).filter (fun j => s.regUpp n out j + 1 = k + 1)
      = (s.regFilter n out).filter (fun j => s.regUpp n out j = k) := by
  apply Finset.filter_congr
  intro j _
  constructor
  · intro h; omega
  · intro h; omega

theorem regLow_mem_range (s : Spectra) (n : ℕ) (out : ℕ → ℝ)
    (hv : validTarget n out) :
    ∀ j ∈ s.regFilter n out, s.regLow n out j ∈ Finset.range n := by
  intro j hj
  have hreg : s.isReg n out j := (Finset.mem_filter.mp hj).2
  have h := (reg_split s n out hv j hreg).2.1
  exact Finset.mem_range.mpr (by omega)

theorem regUpp_mem_range (s : Spectra) (n : ℕ) (out : ℕ → ℝ)
    (hv : validTarget n out) :
    ∀ j ∈ s.regFilter n out, s.regUpp n out j ∈ Finset.range n := by
  intro j hj
  have hreg : s.isReg n out j := (Finset.mem_filter.mp hj).2
  have h1 := (reg_split s n out hv j hreg).1
  have h2 := (reg_split s n out hv j hreg).2.1
  exact Finset.mem_range.mpr (by omega)

/-- The total count of the rebinned grid: the in-range source counts plus
the below-range count that was allocated to the first real bin. -/
theorem sum_totN_bin_rebinResult (s : Spectra) (n : ℕ) (out : ℕ → ℝ)
    (hv : validTarget n out) (i : ℕ) :
    ∑ k ∈ Finset.range n, (s.rebinResult n out).totN_bin i k
      = s.N_above n out i + ∑ j ∈ s.regFilter n out, s.totN_bin i j := by
  have h1 : ∑ k ∈ Finset.range n, (s.rebinResult n out).totN_bin i k
      = (∑ k ∈ Finset.range n, if k = 0 then s.N_above n out i else 0)
        + ((∑ k ∈ Finset.range n, ∑ j ∈ (s.regFilter n out).filter
              (fun j => s.regLow n out j = k),
            ((s.regUpp n out j : ℝ) - s.binInd n out j) * s.totN_bin i j)
          + (∑ k ∈ Finset.range n, ∑ j ∈ (s.regFilter n out).filter
              (fun j => s.regUpp n out j = k),
            (s.binInd n out j - (s.regLow n out j : ℝ)) * s.totN_bin i j)) := by
    rw [← Finset.sum_add_distrib, ← Finset.sum_add_distrib]
    apply Finset.sum_congr rfl
    intro k hk
    rw [totN_bin_rebinResult s n out hv i k (Finset.mem_range.mp hk),
      regFilter_filter_low, regFilter_filter_upp, add_assoc]
  rw [h1]
  have hA : (∑ k ∈ Finset.range n, if k = 0 then s.N_above n out i else 0)
      = s.N_above n out i := by
    rw [Finset.sum_ite_eq' (Finset.range n) 0 (fun _ => s.N_above n out i)]
    exact if_pos (Finset.mem_range.mpr (by have := hv.1; omega))
  rw [hA, Finset.sum_fiberwise_of_maps_to (regLow_mem_range s n out hv),
    Finset.sum_fiberwise_of_maps_to (regUpp_mem_range s n out hv),
    ← Finset.sum_add_distrib]
  congr 1
  apply Finset.sum_congr rfl
  intro j hj
  have hreg : s.isReg n out j := (Finset.mem_filter.mp hj).2
  have hU := (reg_split s n out hv j hreg).1
  rw [hU]
  push_cast
  ring

theorem toteng_bin_eq (s : Spectra) (i j : ℕ) :
    s.toteng_bin i j = s.totN_bin i j * s.eng j := by
  rw [Spectra.toteng_bin, Spectra.totN_bin]
  ring

/-- The total energy of the rebinned grid: the in-range source energies
plus the energy assigned to the below-range count allocated to the first
real bin. -/
theorem sum_toteng_bin_rebinResult (s : Spectra) (n : ℕ) (out : ℕ → ℝ)
    (hv : validTarget n out) (i : ℕ) :
    ∑ k ∈ Finset.range n, (s.rebinResult n out).toteng_bin i k
      = s.eng_above n out i + ∑ j ∈ s.regFilter n out, s.toteng_bin i j := by
  have hres_eng : ∀ k : ℕ, (s.rebinResult n out).eng k = out k := by
    intro k
    simp only [Spectra.rebinResult]
    exact newEng_succ out k
  have h1 : ∑ k ∈ Finset.range n, (s.rebinResult n out).toteng_bin i k
      = (∑ k ∈ Finset.range n, if k = 0 then s.N_above n out i * out k else 0)
        + ((∑ k ∈ Finset.range n, ∑ j ∈ (s.regFilter n out).filter
              (fun j => s.regLow n out j = k),
            ((s.regUpp n out j : ℝ) - s.binInd n out j) * s.totN_bin i j
              * newEng out (s.regLow n out j + 1))
          + (∑ k ∈ Finset.range n, ∑ j ∈ (s.regFilter n out).filter
              (fun j => s.regUpp n out j = k),
            (s.binInd n out j - (s.regLow n out j : ℝ)) * s.totN_bin i j
              * newEng out (s.regUpp n out j + 1))) := by
    rw [← Finset.sum_add_distrib, ← Finset.sum_add_distrib]
    apply Finset.sum_congr rfl
    intro k hk
    rw [toteng_bin_eq, totN_bin_rebinResult s n out hv i k (Finset.mem_range.mp hk),
      regFilter_filter_low, regFilter_filter_upp, hres_eng, add_mul, add_mul,
      Finset.sum_mul, Finset.sum_mul, add_assoc]
    congr 2
    · by_cases hk0 : k = 0
      · subst hk0; rw [if_pos rfl, if_pos rfl]
      · rw [if_neg hk0, if_neg hk0, zero_mul]
    · apply Finset.sum_congr rfl
      intro j hj
      have hcond : s.regLow n out j = k := (Finset.mem_filter.mp hj).2
      rw [← hcond, newEng_succ]
    · apply Finset.sum_congr rfl
      intro j hj
      have hcond : s.regUpp n out j = k := (Finset.mem_filter.mp hj).2
      rw [← hcond, newEng_succ]
  rw [h1]
  have hA : (∑ k ∈ Finset.range n, if k = 0 then s.N_above n out i * out k else 0)
      = s.eng_above n out i := by
    rw [Finset.sum_ite_eq' (Finset.range n) 0 (fun k => s.N_above n out i * out k)]
    rw [if_pos (Finset.mem_range.mpr (by have := hv.1; omega : (0:ℕ) < n))]
    rw [Spectra.eng_above, newEng_succ]
  rw [hA, Finset.sum_fiberwise_of_maps_to (regLow_mem_range s n out hv),
    Finset.sum_fiberwise_of_maps_to (regUpp_mem_range s n out hv),
    ← Finset.sum_add_distrib]
  congr 1
  apply Finset.sum_congr rfl
  intro j hj
  have hreg : s.isReg n out j := (Finset.mem_filter.mp hj).2
  have hsplit := (reg_split s n out hv j hreg).2.2
  rw [toteng_bin_eq, ← hsplit]
  ring

/-! ### Partition of the source bins -/

theorem isReg_not_isLow (s : Spectra) (n : ℕ) (out : ℕ → ℝ) (j : ℕ)
    (h : s.isReg n out j) : ¬ s.isLow n out j := by
  intro hl
  rw [Spectra.isLow] at hl
  exact absurd h.1 (not_le_of_lt hl)

theorem isHigh_not_isLow (s : Spectra) (n : ℕ) (out : ℕ → ℝ) (j : ℕ)
    (h : s.isHigh n out j) : ¬ s.isLow n out j := by
  intro hl
  rw [Spectra.isLow, h] at hl
  have : (0 : ℝ) ≤ (n : ℝ) := Nat.cast_nonneg n
  linarith

theorem isHigh_not_isReg (s : Spectra) (n : ℕ) (out : ℕ → ℝ) (j : ℕ)
    (h : s.isHigh n out j) : ¬ s.isReg n out j := by
  intro hr
  have h2 := hr.2
  rw [h] at h2
  linarith

theorem source_sum_partition (s : Spectra) (n : ℕ) (out : ℕ → ℝ)
    (hv : validTarget n out) (f : ℕ → ℝ) :
    ∑ j ∈ Finset.range s.neng, f j
      = ((∑ j ∈ s.lowFilter n out, f j) + (∑ j ∈ s.regFilter n out, f j))
        + (∑ j ∈ s.highFilter n out, f j) := by
  rw [Spectra.lowFilter, Spectra.regFilter, Spectra.highFilter]
  rw [← Finset.sum_filter_add_sum_filter_not (Finset.range s.neng)
    (fun j => s.isLow n out j) f]
  rw [add_assoc]
  congr 1
  rw [← Finset.sum_filter_add_sum_filter_not
    ((Finset.range s.neng).filter (fun j => ¬ s.isLow n out j))
    (fun j => s.isReg n out j) f]
  congr 1
  · rw [Finset.filter_filter]
    apply Finset.sum_congr
    · apply Finset.filter_congr
      intro j _
      constructor
      · intro h; exact h.2
      · intro h; exact ⟨isReg_not_isLow s n out j h, h⟩
    · intro _ _; rfl
  · rw [Finset.filter_filter]
    apply Finset.sum_congr
    · apply Finset.filter_congr
      intro j _
      constructor
      · intro h
        rcases binInd_cases s n out hv j with hc | hc | hc
        · exact absurd hc h.1
        · exact absurd hc h.2
        · exact hc
      · intro h
        exact ⟨isHigh_not_isLow s n out j h, isHigh_not_isReg s n out j h⟩
    · intro _ _; rfl

/-- C1: for every Spectra on a log-spaced energy axis and every valid
strictly increasing target axis, rebin preserves totals row by row: the
total particle count before (in-range bins plus the underflow accumulator)
equals the total count after rebinning plus the count of the source bins
discarded above the last target bin, and likewise for total energy;
exactly, since reals replace floats. -/
theorem C1_rebin_conservation (s : Spectra) (n : ℕ) (out : ℕ → ℝ)
    (_hls : s.isLogSpaced) (hv : validTarget n out) (i : ℕ) :
    ((∑ j ∈ Finset.range s.neng, s.totN_bin i j) + s.N_underflow i
      = ((∑ k ∈ Finset.range n, (s.rebinInPlace n out).2.totN_bin i k)
          + (s.rebinInPlace n out).2.N_underflow i)
        + ∑ j ∈ s.highFilter n out, s.totN_bin i j)
    ∧ ((∑ j ∈ Finset.range s.neng, s.toteng_bin i j) + s.eng_underflow i
      = ((∑ k ∈ Finset.range n, (s.rebinInPlace n out).2.toteng_bin i k)
          + (s.rebinInPlace n out).2.eng_underflow i)
        + ∑ j ∈ s.highFilter n out, s.toteng_bin i j) := by
  have hrip : s.rebinInPlace n out = (none, s.rebinResult n out) := by
    rw [Spectra.rebinInPlace, Spectra.rebin, if_pos hv.2.2]
  rw [hrip]
  constructor
  · rw [sum_totN_bin_rebinResult s n out hv i]
    have hu : (s.rebinResult n out).N_underflow i
        = s.N_underflow i + s.N_uf_add n out i := rfl
    rw [hu, Spectra.N_uf_add,
      source_sum_partition s n out hv (fun j => s.totN_bin i j)]
    ring
  · rw [sum_toteng_bin_rebinResult s n out hv i]
    have hu : (s.rebinResult n out).eng_underflow i
        = s.eng_underflow i + s.eng_uf_add n out i := rfl
    rw [hu, Spectra.eng_uf_add,
      source_sum_partition s n out hv (fun j => s.toteng_bin i j)]
    ring

/-- Witness for C1 at a concrete container (abscissa 3, 6; counts mode)
rebinned onto the coarser target 4, 16. -/
theorem C1_witness :
    ((∑ j ∈ Finset.range csA.neng, csA.totN_bin 0 j) + csA.N_underflow 0
      = ((∑ k ∈ Finset.range 2, (csA.rebinInPlace 2 outA).2.totN_bin 0 k)
          + (csA.rebinInPlace 2 outA).2.N_underflow 0)
        + ∑ j ∈ csA.highFilter 2 outA, csA.totN_bin 0 j)
    ∧ ((∑ j ∈ Finset.range csA.neng, csA.toteng_bin 0 j) + csA.eng_underflow 0
      = ((∑ k ∈ Finset.range 2, (csA.rebinInPlace 2 outA).2.toteng_bin 0 k)
          + (csA.rebinInPlace 2 outA).2.eng_underflow 0)
        + ∑ j ∈ csA.highFilter 2 outA, csA.toteng_bin 0 j) := by
  have hls : csA.isLogSpaced := by
    refine ⟨by norm_num [csA], by norm_num [csA, engA], 2, by norm_num, ?_⟩
    intro j hj
    have hj0 : j = 0 := by norm_num [csA] at hj; omega
    subst hj0
    norm_num [csA, engA]
  have hv : validTarget 2 outA := by
    refine ⟨by norm_num, by norm_num [outA], ?_⟩
    intro k hk
    have hk0 : k = 0 := by omega
    subst hk0
    norm_num [outA]
  exact C1_rebin_conservation csA 2 outA hls hv 0

/-! ### Below-range samples -/

theorem binInd_at_or_below (s : Spectra) (n : ℕ) (out : ℕ → ℝ)
    (hv : validTarget n out) (j : ℕ) (hje : s.eng j ≤ newEng out 0) :
    s.binInd n out j = -2 ∨ s.binInd n out j = -1 := by
  rcases lt_or_eq_of_le hje with h | h
  · left
    rw [Spectra.binInd]
    exact npInterpIdx_below _ _ _ h
  · right
    have h0 : ¬ s.eng j < newEng out 0 := by
      intro hlt
      rw [h] at hlt
      exact lt_irrefl _ hlt
    have h1 : ¬ newEng out n < s.eng j := by
      intro hlt
      rw [h] at hlt
      have hm := newEng_strictMono n out hv 0 n (by have := hv.1; omega) (le_refl n)
      linarith
    rw [Spectra.binInd, npInterpIdx_in n out (s.eng j) h0 h1]
    have hseg : segIdx (newEng out) (s.eng j) (n - 1) = 0 := by
      have key : ∀ K, K ≤ n - 1 → segIdx (newEng out) (s.eng j) K = 0 := by
        intro K
        induction K with
        | zero => intro _; rfl
        | succ k ih =>
            intro hK
            have hstep : ¬ newEng out (k + 1) ≤ s.eng j := by
              intro hle
              have hm := newEng_strictMono n out hv 0 (k + 1) (by omega)
                (by have := hv.1; omega)
              rw [h] at hle
              linarith
            rw [segIdx, if_neg hstep]
            exact ih (by omega)
      exact key (n - 1) (le_refl _)
    rw [hseg, h]
    norm_num

theorem isLow_frac_at_or_below (s : Spectra) (n : ℕ) (out : ℕ → ℝ)
    (hv : validTarget n out) (j : ℕ) (hje : s.eng j ≤ newEng out 0) :
    s.isLow n out j
    ∧ s.binInd n out j - (⌊s.binInd n out j⌋ : ℝ) = 0 := by
  have hm2 : ⌊(-2 : ℝ)⌋ = -2 := by
    rw [show (-2 : ℝ) = ((-2 : ℤ) : ℝ) by norm_num]
    exact Int.floor_intCast _
  have hm1 : ⌊(-1 : ℝ)⌋ = -1 := by
    rw [show (-1 : ℝ) = ((-1 : ℤ) : ℝ) by norm_num]
    exact Int.floor_intCast _
  rcases binInd_at_or_below s n out hv j hje with h | h
  · constructor
    · rw [Spectra.isLow, h]; norm_num
    · rw [h, hm2]; norm_num
  · constructor
    · rw [Spectra.isLow, h]; norm_num
    · rw [h, hm1]; norm_num

/-- C5 (amended): every source sample whose energy is at or below the
synthetic underflow-bin energy (one log-spacing below the first target
point) has its full particle count and full energy added to the underflow
accumulators, and none of that sample passes to the in-range bins: the
sample is excluded from the regular filter and contributes zero to the
partially-rescued count N_above.  (A sample strictly between the synthetic
energy and the first target point is instead split between the underflow
accumulators and the first in-range bin.) -/
theorem C5_underflow_at_or_below (s : Spectra) (n : ℕ) (out : ℕ → ℝ)
    (hv : validTarget n out) (j : ℕ) (hj : j < s.neng)
    (hje : s.eng j ≤ newEng out 0) (i : ℕ) :
    j ∈ s.lowFilter n out
    ∧ j ∉ s.regFilter n out
    ∧ s.N_above n out i
        = ∑ x ∈ (s.lowFilter n out).erase j,
            (s.binInd n out x - (⌊s.binInd n out x⌋ : ℝ)) * s.totN_bin i x
    ∧ s.N_uf_add n out i
        = s.totN_bin i j
          + ((∑ x ∈ (s.lowFilter n out).erase j, s.totN_bin i x)
             - s.N_above n out i)
    ∧ s.eng_uf_add n out i
        = s.toteng_bin i j
          + ((∑ x ∈ (s.lowFilter n out).erase j, s.toteng_bin i x)
             - s.eng_above n out i) := by
  obtain ⟨hlow, hfrac⟩ := isLow_frac_at_or_below s n out hv j hje
  have hmem : j ∈ s.lowFilter n out := by
    rw [Spectra.lowFilter, Finset.mem_filter]
    exact ⟨Finset.mem_range.mpr hj, hlow⟩
  refine ⟨hmem, ?_, ?_, ?_, ?_⟩
  · intro hr
    rw [Spectra.regFilter, Finset.mem_filter] at hr
    exact isReg_not_isLow s n out j hr.2 hlow
  · rw [Spectra.N_above, ← Finset.add_sum_erase _ _ hmem, hfrac, zero_mul,
      zero_add]
  · rw [Spectra.N_uf_add, ← Finset.add_sum_erase _ _ hmem]
    ring
  · rw [Spectra.eng_uf_add, ← Finset.add_sum_erase _ _ hmem]
    ring

/-! ### Concrete facts about the target abscissa 4, 16 -/

theorem outA_validTarget : validTarget 2 outA := by
  refine ⟨by norm_num, by norm_num [outA], ?_⟩
  intro k hk
  have hk0 : k = 0 := by omega
  subst hk0
  norm_num [outA]

theorem outA_newEng_zero : newEng outA 0 = 1 := by
  rw [newEng, if_pos rfl]
  have h : Real.log (outA 0) - (Real.log (outA 1) - Real.log (outA 0)) = 0 := by
    norm_num [outA]
    rw [show (16 : ℝ) = 4 ^ 2 by norm_num, Real.log_pow]
    push_cast
    ring
  rw [h, Real.exp_zero]

/-- Witness for C5 (amended) at a concrete container whose first sample
sits exactly at the synthetic underflow-bin energy of the target 4, 16. -/
theorem C5_witness :
    0 ∈ csL.lowFilter 2 outA
    ∧ 0 ∉ csL.regFilter 2 outA
    ∧ csL.N_above 2 outA 0
        = ∑ x ∈ (csL.lowFilter 2 outA).erase 0,
            (csL.binInd 2 outA x - (⌊csL.binInd 2 outA x⌋ : ℝ)) * csL.totN_bin 0 x
    ∧ csL.N_uf_add 2 outA 0
        = csL.totN_bin 0 0
          + ((∑ x ∈ (csL.lowFilter 2 outA).erase 0, csL.totN_bin 0 x)
             - csL.N_above 2 outA 0)
    ∧ csL.eng_uf_add 2 outA 0
        = csL.toteng_bin 0 0
          + ((∑ x ∈ (csL.lowFilter 2 outA).erase 0, csL.toteng_bin 0 x)
             - csL.eng_above 2 outA 0) := by
  have hje : csL.eng 0 ≤ newEng outA 0 := by
    rw [outA_newEng_zero]
    norm_num [csL, engL]
  exact C5_underflow_at_or_below csL 2 outA outA_validTarget 0
    (by norm_num [csL]) hje 0

/-! ### Concrete evaluation of a rebin with a sample below the first
target bin -/

theorem outA_newEng_one : newEng outA 1 = 4 := by
  rw [newEng_succ]
  norm_num [outA]

theorem outA_newEng_two : newEng outA 2 = 16 := by
  rw [newEng_succ]
  norm_num [outA]

theorem csA_binInd_zero : csA.binInd 2 outA 0 = -(1 / 3) := by
  have hx : csA.eng 0 = 3 := by norm_num [csA, engA]
  have hseg : segIdx (newEng outA) 3 1 = 0 := by
    rw [segIdx, if_neg]
    · rfl
    · rw [outA_newEng_one]; norm_num
  rw [Spectra.binInd, hx, npInterpIdx]
  simp only [show (3 : ℕ) - 1 = 2 from rfl, show (3 : ℕ) - 2 = 1 from rfl]
  rw [if_neg (show ¬ (3 : ℝ) < newEng outA 0 by rw [outA_newEng_zero]; norm_num),
    if_neg (show ¬ newEng outA 2 < 3 by rw [outA_newEng_two]; norm_num), hseg]
  rw [show (0 : ℕ) + 1 = 1 from rfl, outA_newEng_zero, outA_newEng_one]
  norm_num

theorem csA_binInd_one : csA.binInd 2 outA 1 = 1 / 6 := by
  have hx : csA.eng 1 = 6 := by norm_num [csA, engA]
  have hseg : segIdx (newEng outA) 6 1 = 1 := by
    rw [segIdx, if_pos]
    rw [outA_newEng_one]; norm_num
  rw [Spectra.binInd, hx, npInterpIdx]
  simp only [show (3 : ℕ) - 1 = 2 from rfl, show (3 : ℕ) - 2 = 1 from rfl]
  rw [if_neg (show ¬ (6 : ℝ) < newEng outA 0 by rw [outA_newEng_zero]; norm_num),
    if_neg (show ¬ newEng outA 2 < 6 by rw [outA_newEng_two]; norm_num), hseg]
  rw [show (1 : ℕ) + 1 = 2 from rfl, outA_newEng_one, outA_newEng_two]
  norm_num

theorem csA_totN_bin_zero : csA.totN_bin 0 0 = 1 := by
  have hw0 : 0 < get_log_bin_width 2 engA 0 := by
    rw [get_log_bin_width_first 2 engA (by norm_num)]
    have h := Real.log_lt_log (show (0 : ℝ) < 3 by norm_num)
      (show (3 : ℝ) < 6 by norm_num)
    norm_num [engA]
    linarith
  simp only [Spectra.totN_bin, Spectra.dNdlogE, csA]
  rw [div_mul_cancel₀ _ (ne_of_gt hw0)]

/-- Counterexample to C5 as stated: the container csA has its first sample
at energy 3, below the first bin (energy 4) of the coarser target axis
4, 16, with per-bin count 1; yet after rebinning the underflow accumulator
has received only 1/3, not the full count. -/
theorem C5_counterexample :
    csA.eng 0 < outA 0
    ∧ csA.totN_bin 0 0 = 1
    ∧ (csA.rebinInPlace 2 outA).2.N_underflow 0 = 1 / 3
    ∧ (csA.rebinInPlace 2 outA).2.N_underflow 0
        ≠ csA.N_underflow 0 + csA.totN_bin 0 0 := by
  have hfl : ⌊(-(1 / 3) : ℝ)⌋ = -1 := by
    refine Int.floor_eq_iff.mpr ⟨?_, ?_⟩
    · push_cast; norm_num
    · push_cast; norm_num
  have hlow0 : csA.isLow 2 outA 0 := by
    rw [Spectra.isLow, csA_binInd_zero]
    norm_num
  have hnotlow1 : ¬ csA.isLow 2 outA 1 := by
    rw [Spectra.isLow, csA_binInd_one]
    norm_num
  have hNab : csA.N_above 2 outA 0 = 2 / 3 := by
    rw [Spectra.N_above, Spectra.lowFilter, Finset.sum_filter]
    simp only [show csA.neng = 2 from rfl]
    rw [Finset.sum_range_succ, Finset.sum_range_succ, Finset.sum_range_zero]
    rw [if_pos hlow0, if_neg hnotlow1, csA_binInd_zero, csA_totN_bin_zero, hfl]
    push_cast
    norm_num
  have hufadd : csA.N_uf_add 2 outA 0 = 1 / 3 := by
    rw [Spectra.N_uf_add, hNab, Spectra.lowFilter, Finset.sum_filter]
    simp only [show csA.neng = 2 from rfl]
    rw [Finset.sum_range_succ, Finset.sum_range_succ, Finset.sum_range_zero]
    rw [if_pos hlow0, if_neg hnotlow1, csA_totN_bin_zero]
    norm_num
  have hrip : csA.rebinInPlace 2 outA = (none, csA.rebinResult 2 outA) := by
    rw [Spectra.rebinInPlace, Spectra.rebin, if_pos outA_validTarget.2.2]
  have huf : (csA.rebinInPlace 2 outA).2.N_underflow 0 = 1 / 3 := by
    rw [hrip]
    show csA.N_underflow 0 + csA.N_uf_add 2 outA 0 = 1 / 3
    rw [hufadd]
    norm_num [csA]
  refine ⟨by norm_num [csA, engA, outA], csA_totN_bin_zero, huf, ?_⟩
  rw [huf, csA_totN_bin_zero]
  norm_num [csA]
